import Mathlib

/-!
Verification of the pyCage VS Code extension (JavaScript) against its
natural-language specification.

Shallow embedding conventions:
* JavaScript strings are modelled as `List Char` (package names are ASCII;
  `toLowerCase`, `startsWith`, `includes`, `split(/[-_]/)` and character
  indexing are modelled by the corresponding list functions below).
* JavaScript numbers are idealized as exact arithmetic: download counts are
  `ℕ` (the data model guarantees nonnegative integers, absent means 0),
  intermediate ratios are `ℚ`, and scores are `ℝ` because the code computes
  `Math.pow(x, 0.5)`, i.e. a real square root, on them.  Decimal constants
  such as 0.8 or 0.6 are taken at their exact decimal value.
* `Array.prototype.sort` with a consistent numeric comparator is stable
  (ES2019); it is modelled by the stable `List.mergeSort`.
* Side effects (terminal dispatches, the shared venv-creation flag, the
  file-system oracle, child-process callbacks) are modelled by explicit
  state passing and small step machines, defined next to the functions they
  embed.
-/

/-! ## JavaScript string primitives (src/src/commands/commandHandlers.js,
src/src/utils/commandBase.js use the built-ins they model) -/

/-- Model of `String.prototype.toLowerCase` on the ASCII package names the
extension handles: character-wise lowercasing. -/
def jsToLower (s : List Char) : List Char :=
  s.map Char.toLower

/-- Model of `name.split(/[-_]/)`: split at every occurrence of a `-` or `_`
character; like the JavaScript original this produces (possibly empty)
segments, and the empty string splits to one empty segment. -/
def splitOnDelim : List Char → List (List Char)
  | [] => [[]]
  | c :: cs =>
    if c = '-' ∨ c = '_' then
      [] :: splitOnDelim cs
    else
      match splitOnDelim cs with
      | [] => [[c]]
      | t :: ts => (c :: t) :: ts

/-- The greedy subsequence-matching loop of `calculateKeywordSimilarity`
(commandHandlers.js lines 286-294): walk over `name`, consuming characters of
`search` in order, and return how many characters of `search` were matched.
In the source both `matches` and `searchIndex` are incremented together, so a
single counter models both variables. -/
def countSub : List Char → List Char → ℕ
  | _, [] => 0
  | [], _ :: _ => 0
  | n :: ns, s :: ss => if n = s then countSub ns ss + 1 else countSub ns (s :: ss)

/-- A package record as fetched from the index: a `project` name and an
optional `download_count` (absent is treated as 0 by the code).  The
`weightedScore` field models the `_weightedScore` property that
`updateItems` dynamically adds to the JavaScript objects; it is `none` as
fetched. -/
structure PackageRecord where
  project : List Char
  download_count : Option ℕ
  weightedScore : Option ℝ

/-- Model of the idiom `pkg.download_count || 0`. -/
def dcOf (p : PackageRecord) : ℕ :=
  p.download_count.getD 0

namespace CommandHandlers

/-- Embedding of `calculateKeywordSimilarity` from
src/src/commands/commandHandlers.js (lines 263-297).  Decimal constants are
written as exact rationals (0.6 = 3/5, 0.4 = 2/5, 0.2 = 1/5, 0.1 = 1/10). -/
def calculateKeywordSimilarity (searchTerm packageName : List Char) : ℚ :=
  if searchTerm = [] ∨ packageName = [] then 0
  else
    let search := jsToLower searchTerm
    let name := jsToLower packageName
    if search = name then 1
    else if search <+: name then 3/5
    else if search <:+: name then
      if search ∈ splitOnDelim name then 2/5 else 1/5
    else
      if countSub name search = search.length then
        ((countSub name search : ℚ) / (name.length : ℚ)) * (1/10)
      else 0

/-- Embedding of `calculateWeightedScore` from
src/src/commands/commandHandlers.js (lines 306-315).  `Math.pow(x, 0.5)` on
the nonnegative `downloadScore` is the real square root. -/
noncomputable def calculateWeightedScore (pkg : PackageRecord) (searchTerm : List Char)
    (maxDownloads : ℚ) : ℝ :=
  let downloadScore : ℚ := if 0 < maxDownloads then (dcOf pkg : ℚ) / maxDownloads else 0
  let similarityScore : ℚ := calculateKeywordSimilarity searchTerm pkg.project
  let exponentialDownloadScore : ℝ := Real.sqrt (downloadScore : ℝ)
  exponentialDownloadScore * 0.8 + (similarityScore : ℝ) * 0.2

end CommandHandlers

namespace CommandBase

/-- Embedding of `calculateKeywordSimilarity` from
src/src/utils/commandBase.js (lines 140-173); textually identical to the
commandHandlers.js copy. -/
def calculateKeywordSimilarity (searchTerm packageName : List Char) : ℚ :=
  if searchTerm = [] ∨ packageName = [] then 0
  else
    let search := jsToLower searchTerm
    let name := jsToLower packageName
    if search = name then 1
    else if search <+: name then 3/5
    else if search <:+: name then
      if search ∈ splitOnDelim name then 2/5 else 1/5
    else
      if countSub name search = search.length then
        ((countSub name search : ℚ) / (name.length : ℚ)) * (1/10)
      else 0

/-- Embedding of `calculateWeightedScore` from src/src/utils/commandBase.js
(lines 183-192): identical to the commandHandlers.js copy except that the
download score is squared (`Math.pow(downloadScore, 2)`) instead of
square-rooted. -/
noncomputable def calculateWeightedScore (pkg : PackageRecord) (searchTerm : List Char)
    (maxDownloads : ℚ) : ℝ :=
  let downloadScore : ℚ := if 0 < maxDownloads then (dcOf pkg : ℚ) / maxDownloads else 0
  let similarityScore : ℚ := calculateKeywordSimilarity searchTerm pkg.project
  let exponentialDownloadScore : ℝ := ((downloadScore : ℝ)) ^ (2 : ℕ)
  exponentialDownloadScore * 0.8 + (similarityScore : ℝ) * 0.2

end CommandBase

/-! ## Rank labels and the rank-prefix regex
(src/src/commands/commandHandlers.js lines 354-357 and 376-382;
src/src/utils/commandBase.js lines 237-240 and 264-270) -/

/-- Repeated division by ten, accumulating decimal digit characters; `fuel`
bounds the recursion depth (any fuel above the digit count gives the same
result). -/
def natDigitsAux : ℕ → ℕ → List Char → List Char
  | 0, _, acc => acc
  | fuel + 1, n, acc =>
    if n < 10 then Nat.digitChar n :: acc
    else natDigitsAux fuel (n / 10) (Nat.digitChar (n % 10) :: acc)

/-- Decimal digit characters of a natural number, modelling `String(n)` for
the nonnegative ranks the code produces. -/
def natDigits (n : ℕ) : List Char :=
  natDigitsAux (n + 1) n []

/-- Model of `s.padStart(2, '0')`. -/
def padTwo (s : List Char) : List Char :=
  List.replicate (2 - s.length) '0' ++ s

/-- The label built for the candidate of 1-based rank `i`:
`String(i).padStart(2, '0') + ". " + name` (commandHandlers.js line 355). -/
def formatLabel (i : ℕ) (name : List Char) : List Char :=
  padTwo (natDigits i) ++ ('.' :: ' ' :: name)

/-- The character class of the JavaScript regex `\s` (whitespace). -/
def isJsSpace (c : Char) : Bool :=
  let v := c.toNat
  v = 9 || v = 10 || v = 11 || v = 12 || v = 13 || v = 32 || v = 0xA0 ||
    v = 0x1680 || (0x2000 ≤ v && v ≤ 0x200A) || v = 0x2028 || v = 0x2029 ||
    v = 0x202F || v = 0x205F || v = 0x3000 || v = 0xFEFF

/-- JavaScript line terminators, which `.` in a regex does not match. -/
def isLineTerm (c : Char) : Bool :=
  let v := c.toNat
  v = 10 || v = 13 || v = 0x2028 || v = 0x2029

/-- The capture group of `label.match(/^\d+\.\s*(.+)$/)`
(commandHandlers.js line 380): `none` models a failed match.  `\d+` can only
match the maximal leading digit run (whatever it backtracks to must be
followed by `.`, and shortening the run exposes another digit); `\s*` is
greedy but backtracks so that `(.+)` keeps at least one character; `.`
matches everything except line terminators and `$` is end of input, so any
line terminator at or after the capture start kills the match. -/
def rankCapture (label : List Char) : Option (List Char) :=
  let ds := label.takeWhile Char.isDigit
  if ds = [] then none
  else
    match label.dropWhile Char.isDigit with
    | '.' :: rest =>
      let suffix := rest.dropWhile isJsSpace
      if suffix = [] then
        match rest.getLast? with
        | none => none
        | some c => if isLineTerm c then none else some [c]
      else if suffix.any isLineTerm then none else some suffix
    | _ => none

/-- Model of `match ? match[1] : item.label` (commandHandlers.js line 381):
strip the rank prefix when the regex matches, otherwise return the label
unchanged. -/
def stripRankLabel (label : List Char) : List Char :=
  (rankCapture label).getD label

/-- A quick-pick item as consumed by `getProjectNameFromQuickPick`: its
`label` property may be absent (`none`). -/
structure QuickPickItem where
  label : Option (List Char)

namespace CommandHandlers

/-- Embedding of `getProjectNameFromQuickPick` from
src/src/commands/commandHandlers.js (lines 376-382).  `!item || !item.label`
is falsy exactly when the item is `none` or the label is absent or empty. -/
def getProjectNameFromQuickPick (item : Option QuickPickItem) : Option (List Char) :=
  match item with
  | none => none
  | some it =>
    match it.label with
    | none => none
    | some l => if l = [] then none else some (stripRankLabel l)

end CommandHandlers

namespace CommandBase

/-- Embedding of `getProjectNameFromQuickPick` from
src/src/utils/commandBase.js (lines 264-270); textually identical to the
commandHandlers.js copy. -/
def getProjectNameFromQuickPick (item : Option QuickPickItem) : Option (List Char) :=
  match item with
  | none => none
  | some it =>
    match it.label with
    | none => none
    | some l => if l = [] then none else some (stripRankLabel l)

end CommandBase

/-! ## The ranked search pipeline, `updateItems`
(src/src/commands/commandHandlers.js lines 326-360).  The closure is
decomposed into one definition per stage so the claims can speak about the
intermediate values; `updateItems` composes them exactly as the source does. -/

/-- Line 328-330: `names.filter(pkg => pkg.project &&
pkg.project.toLowerCase().includes(filter))`.  A truthy `project` is a
nonempty string; `includes` is substring (infix) containment. -/
def filterMatches (names : List PackageRecord) (filter : List Char) : List PackageRecord :=
  names.filter (fun p => p.project ≠ [] ∧ filter <:+: jsToLower p.project)

/-- Lines 334/337: `matches.sort((a, b) => (b.download_count || 0) -
(a.download_count || 0))` — a stable descending sort on download counts. -/
def sortByDownloads (l : List PackageRecord) : List PackageRecord :=
  l.mergeSort (fun a b => decide (dcOf b ≤ dcOf a))

/-- Line 338: `matches.slice(0, 20)`. -/
def codeTopMatches (names : List PackageRecord) (filter : List Char) : List PackageRecord :=
  (sortByDownloads (filterMatches names filter)).take 20

/-- Line 339: `Math.max(...topMatches.map(pkg => pkg.download_count || 0))`.
`Math.max()` of an empty spread is `-Infinity`; that value is only ever
compared with `> 0` inside `calculateWeightedScore`, and when the top list is
empty there is no record to score, so 0 (which also fails `> 0`) is an
observationally equal stand-in. -/
def codeMaxDownloads (names : List PackageRecord) (filter : List Char) : ℚ :=
  match (codeTopMatches names filter).map dcOf with
  | [] => 0
  | d :: ds => ((ds.foldl max d : ℕ) : ℚ)

/-- Lines 342-344: the `matches.forEach` that computes each matching record's
weighted score; the score a record carries is paired with it here. -/
noncomputable def scoredList (names : List PackageRecord) (filter : List Char) :
    List (PackageRecord × ℝ) :=
  (sortByDownloads (filterMatches names filter)).map
    (fun p => (p, CommandHandlers.calculateWeightedScore p filter (codeMaxDownloads names filter)))

/-- Lines 347-351: `matches.sort((a, b) => scoreB - scoreA)` — a stable
descending sort on the just-computed weighted scores (`|| 0` only replaces a
score of 0 by itself here, every sorted record having been scored). -/
noncomputable def sortByScore (l : List (PackageRecord × ℝ)) : List (PackageRecord × ℝ) :=
  l.mergeSort (fun a b => decide (b.2 ≤ a.2))

/-- Embedding of the `updateItems` closure (lines 326-360), returning the
labels of the displayed items.  The human-readable `description` field is
omitted: no claim concerns it. -/
noncomputable def updateItems (names : List PackageRecord) (value : List Char) :
    List (List Char) :=
  let filter := jsToLower value
  if filter = [] then
    ((sortByDownloads (filterMatches names filter)).take 200).mapIdx
      (fun i p => formatLabel (i + 1) p.project)
  else
    ((sortByScore (scoredList names filter)).take 200).mapIdx
      (fun i pr => formatLabel (i + 1) pr.1.project)

/-- The effect of one `updateItems` run on the process-wide package list
(frame model for the claims about mutation): `filter` and the two `sort`
calls operate on a fresh array, but its elements alias the fetched records,
and the `forEach` on lines 342-344 assigns `pkg._weightedScore` on every
matching record in place. -/
noncomputable def updateItemsEffect (names : List PackageRecord) (value : List Char) :
    List PackageRecord :=
  let filter := jsToLower value
  if filter = [] then names
  else
    names.map (fun p =>
      if p.project ≠ [] ∧ filter <:+: jsToLower p.project then
        { project := p.project, download_count := p.download_count,
          weightedScore :=
            some (CommandHandlers.calculateWeightedScore p filter (codeMaxDownloads names filter)) }
      else p)

/-! ## The venv bootstrap, `createVenvIfNeeded`
(src/src/managers/venvManager.js lines 15-150) -/

namespace VenvManager

/-- Terminal outcomes of the bootstrap after the polling loop
(venvManager.js lines 105-133): directory and interpreter both observed ⇒
activation command sent; directory without interpreter ⇒ warning; neither ⇒
creation-failed error.  The latter two are the spec's TimedOut/Warn states. -/
inductive VenvOutcome where
  | activated
  | warnedNoPython
  | failedNotCreated
deriving DecidableEq

/-- The polling loop of venvManager.js lines 78-103, driven by a
file-system oracle: `dirAt i` (resp. `pyAt i`) is what `fs.existsSync`
reports for the `.venv` directory (resp. the platform-specific python
executable) on the 0-based attempt `i`.  Each iteration first waits one
second, then checks the directory, and only if it exists checks the
interpreter, breaking when the interpreter is seen; `pythonExists` keeps its
previous value on attempts where the directory is absent, exactly as the
mutable variable in the source does.  Returns (number of polls performed,
final `venvCreated`, final `pythonExists`). -/
def pollAux (dirAt pyAt : ℕ → Bool) : ℕ → ℕ → Bool → Bool → ℕ × Bool × Bool
  | 0, attempt, vc, pe => (attempt, vc, pe)
  | remaining + 1, attempt, _, pe =>
    let vc' := dirAt attempt
    if vc' then
      let pe' := pyAt attempt
      if pe' then (attempt + 1, vc', pe')
      else pollAux dirAt pyAt remaining (attempt + 1) vc' pe'
    else pollAux dirAt pyAt remaining (attempt + 1) vc' pe

/-- The full polling loop: `maxAttempts = 15`, starting from attempt 0 with
both flags false (lines 74-78). -/
def pollLoop (dirAt pyAt : ℕ → Bool) : ℕ × Bool × Bool :=
  pollAux dirAt pyAt 15 0 false false

/-- Polls performed by the loop. -/
def pollCount (dirAt pyAt : ℕ → Bool) : ℕ :=
  (pollLoop dirAt pyAt).1

/-- The outcome reported after the loop (lines 105-133). -/
def pollOutcome (dirAt pyAt : ℕ → Bool) : VenvOutcome :=
  let r := pollLoop dirAt pyAt
  if r.2.1 && r.2.2 then .activated
  else if r.2.1 && !r.2.2 then .warnedNoPython
  else .failedNotCreated

/-- Exception points inside the `try` block of `createVenvIfNeeded`: an
exception may be thrown before or after the `terminal.sendText(uv venv)`
dispatch, or not at all. -/
inductive BodyErr where
  | noErr
  | beforeDispatch
  | afterDispatch
deriving DecidableEq

/-- Sequential exit-path model of one `createVenvIfNeeded` call (lines
15-150): given the shared flag's value at entry and the environment the call
observes, return the flag's value when the call finishes and how many
`uv venv` lines it dispatched.  The `catch` block (lines 135-146) dispatches
`uv venv` once more on a fresh terminal; `fallbackOk` is false when that
fallback itself throws (the nested catch only logs).  Every path through the
`try` block runs the `finally` that clears the flag (lines 147-149); the
early-exit paths (venv already exists, guard already held) never touch the
flag. -/
def createVenvCall (flag0 : Bool) (venvExists workspaceFound doubleCheckExists : Bool)
    (err : BodyErr) (fallbackOk : Bool) : Bool × ℕ :=
  if venvExists then (flag0, 0)
  else if flag0 then (flag0, 0)
  else
    let dispatches :=
      if !workspaceFound then 0
      else if doubleCheckExists then 0
      else
        match err with
        | .noErr => 1
        | .beforeDispatch => if fallbackOk then 1 else 0
        | .afterDispatch => if fallbackOk then 2 else 1
    (false, dispatches)

/-- Program counter of one bootstrap call in the two-call interleaving
machine.  The JavaScript event loop runs the code between two `await`s
atomically: the guard test together with the flag acquisition (lines 42-48)
is one step, the `uv venv` dispatch (line 68) another, and the `finally`
release (line 148) the last; the polling `await`s in between only lengthen
the window in which the other call can run. -/
inductive PC where
  | start
  | acquired
  | dispatched
  | done
deriving DecidableEq

/-- Shared state of two overlapping bootstrap calls, both invoked with the
venv absent and a workspace present: the `venvCreationInProgress` flag, the
number of `uv venv` lines sent so far, and each call's program counter. -/
structure MState where
  flag : Bool
  cmds : ℕ
  pc1 : PC
  pc2 : PC
deriving DecidableEq

/-- One atomic step of the call at program counter `pc`. -/
def stepThread (pc : PC) (flag : Bool) (cmds : ℕ) : PC × Bool × ℕ :=
  match pc with
  | .start => if flag then (.done, flag, cmds) else (.acquired, true, cmds)
  | .acquired => (.dispatched, flag, cmds + 1)
  | .dispatched => (.done, false, cmds)
  | .done => (.done, flag, cmds)

/-- Scheduler step: `true` steps the first call, `false` the second. -/
def step (s : MState) (t : Bool) : MState :=
  if t then
    let r := stepThread s.pc1 s.flag s.cmds
    { flag := r.2.1, cmds := r.2.2, pc1 := r.1, pc2 := s.pc2 }
  else
    let r := stepThread s.pc2 s.flag s.cmds
    { flag := r.2.1, cmds := r.2.2, pc1 := s.pc1, pc2 := r.1 }

/-- Run a schedule (list of scheduler choices). -/
def run (s : MState) (sched : List Bool) : MState :=
  sched.foldl step s

/-- Initial state: flag clear, no command sent, both calls at entry. -/
def initState : MState :=
  { flag := false, cmds := 0, pc1 := .start, pc2 := .start }

end VenvManager

/-! ## The tool locator, `checkUvInstalled`
(src/src/managers/uvManager.js lines 9-47) -/

namespace UvManager

/-- State of the five-probe race in `checkUvInstalled` once the bare `uv
--version` probe has failed: `foundPath` and `checkedPaths` are the closure
variables of lines 24-25, `res` is the promise (`none` = pending, `some b` =
resolved to `b`; a promise keeps its first resolution), and `resolvedAt`
records how many path-probe callbacks had completed when it resolved. -/
structure ProbeState where
  foundPath : Option (Fin 4)
  checkedPaths : ℕ
  res : Option Bool
  resolvedAt : Option ℕ
deriving DecidableEq

/-- Resolving a promise is a no-op once it is resolved. -/
def resolveP (r : Option Bool) (v : Bool) : Option Bool :=
  match r with
  | some w => some w
  | none => some v

/-- The callback of one well-known-path probe (lines 28-39): increment
`checkedPaths`; on success with no earlier success, record the path and
resolve `true`; otherwise, if this was the last callback and no probe
succeeded, resolve `false`. -/
def probeStep (outcomes : Fin 4 → Bool) (s : ProbeState) (p : Fin 4) : ProbeState :=
  let checked' := s.checkedPaths + 1
  if outcomes p = true ∧ s.foundPath = none then
    { foundPath := some p, checkedPaths := checked',
      res := resolveP s.res true,
      resolvedAt := match s.res with | some _ => s.resolvedAt | none => some checked' }
  else if checked' = 4 ∧ s.foundPath = none then
    { foundPath := s.foundPath, checkedPaths := checked',
      res := resolveP s.res false,
      resolvedAt := match s.res with | some _ => s.resolvedAt | none => some checked' }
  else
    { foundPath := s.foundPath, checkedPaths := checked',
      res := s.res, resolvedAt := s.resolvedAt }

/-- Run the four path-probe callbacks in the completion order `order`
(a permutation of the four well-known paths), starting from the pristine
closure state. -/
def runProbes (outcomes : Fin 4 → Bool) (order : List (Fin 4)) : ProbeState :=
  order.foldl (probeStep outcomes) ⟨none, 0, none, none⟩

/-- The boolean `checkUvInstalled` resolves to: `true` immediately when the
bare `uv --version` probe succeeds (lines 41-44, no path probe is even
started), otherwise whatever the path-probe race resolves (lines 13-40). -/
def checkUvInstalled (bareOk : Bool) (outcomes : Fin 4 → Bool)
    (order : List (Fin 4)) : Option Bool :=
  if bareOk then some true else (runProbes outcomes order).res

end UvManager

/-! ## Claim statements and spec-side formulas.  Definitions in this section
follow the wording of the specification/claims, to be compared with the
embeddings above. -/

/-- The similarity ladder as worded by claim C5: 1.0 on case-insensitive
equality; else 0.6 when the lowercased name starts with the lowercased
query; else 0.4 when the query is a whole hyphen/underscore-delimited token
of the name; else 0.2 when the name merely contains the query; otherwise,
when every character of the query appears in the name in order (a sublist),
(matched character count / name length) * 0.1 — all query characters being
matched in that case — and 0 if not. -/
def claimSimilaritySpec (query packageName : List Char) : ℚ :=
  let ql := jsToLower query
  let nl := jsToLower packageName
  if ql = nl then 1
  else if ql <+: nl then 3/5
  else if ql ∈ splitOnDelim nl then 2/5
  else if ql <:+: nl then 1/5
  else if List.Sublist ql nl then ((ql.length : ℚ) / (nl.length : ℚ)) * (1/10)
  else 0

/-- Claim C5 as stated: the code's similarity function agrees with the
ladder above on every query and package name. -/
def C5Statement : Prop :=
  ∀ query packageName : List Char,
    CommandHandlers.calculateKeywordSimilarity query packageName =
      claimSimilaritySpec query packageName

/-- The normalization constant as worded by claim C4: the maximum
`download_count` over the top 20 of the filtered records sorted by
downloads descending. -/
def specMaxD (names : List PackageRecord) (filter : List Char) : ℕ :=
  ((codeTopMatches names filter).map dcOf).foldr max 0

/-- The weighted score as worded by claim C4:
`0.8 * (download_count / maxD)^0.5 + 0.2 * similarity`, the download term
being 0 when `maxD` is 0 and a missing `download_count` counting as 0. -/
noncomputable def specWeightedScore (p : PackageRecord) (query : List Char) (maxD : ℕ) : ℝ :=
  0.8 * (if maxD = 0 then 0 else ((dcOf p : ℝ) / (maxD : ℝ)) ^ ((1 : ℝ) / 2)) +
    0.2 * ((CommandHandlers.calculateKeywordSimilarity query p.project : ℚ) : ℝ)

/-- Claim C1 as stated: for every package list and non-empty query, a
matching record whose project equals the query case-insensitively receives a
weighted score strictly greater than every other matching record's weighted
score (the scores being the ones `updateItems` computes, with its
normalization constant). -/
def C1Statement : Prop :=
  ∀ (names : List PackageRecord) (value : List Char), value ≠ [] →
    ∀ e ∈ filterMatches names (jsToLower value),
      ∀ o ∈ filterMatches names (jsToLower value),
        jsToLower e.project = jsToLower value →
        jsToLower o.project ≠ jsToLower value →
        CommandHandlers.calculateWeightedScore o (jsToLower value)
            (codeMaxDownloads names (jsToLower value)) <
          CommandHandlers.calculateWeightedScore e (jsToLower value)
            (codeMaxDownloads names (jsToLower value))

/-- Parametric weighted score used by claim C9: the shared shape of the two
near-duplicate implementations, with the scaling of the normalized download
score left as a parameter. -/
noncomputable def genWeightedScore (scale : ℝ → ℝ) (pkg : PackageRecord)
    (searchTerm : List Char) (maxDownloads : ℚ) : ℝ :=
  let downloadScore : ℚ := if 0 < maxDownloads then (dcOf pkg : ℚ) / maxDownloads else 0
  let similarityScore : ℚ := CommandHandlers.calculateKeywordSimilarity searchTerm pkg.project
  scale (downloadScore : ℝ) * 0.8 + (similarityScore : ℝ) * 0.2

/-- Claim C7 as stated: for every rank `i ≥ 1` and every name that does not
itself match the rank-prefix pattern, stripping the label built for it
recovers exactly the name; and a label carrying no prefix is returned
unchanged. -/
def C7Statement : Prop :=
  (∀ (i : ℕ) (name : List Char), 1 ≤ i → rankCapture name = none →
      stripRankLabel (formatLabel i name) = name) ∧
  (∀ label : List Char, rankCapture label = none → stripRankLabel label = label)

/-- Claim C8 as stated: running the ranked search leaves every fetched
record unchanged — no field of any record in the process-wide package list
is added, removed, or modified. -/
def C8Statement : Prop :=
  ∀ (names : List PackageRecord) (value : List Char),
    updateItemsEffect names value = names

/-! ## Helper lemmas about the string primitives -/

theorem jsToLower_eq_nil {s : List Char} : jsToLower s = [] ↔ s = [] := by
  simp [jsToLower]

theorem countSub_le_length : ∀ (name search : List Char), countSub name search ≤ name.length := by
  intro name
  induction name with
  | nil => intro search; cases search <;> simp [countSub]
  | cons n ns ih =>
    intro search
    cases search with
    | nil => simp [countSub]
    | cons s ss =>
      by_cases h : n = s
      · simpa [countSub, h] using ih ss
      · have := ih (s :: ss)
        simp only [countSub, if_neg h, List.length_cons]
        omega

theorem sublist_countSub : ∀ (name search : List Char),
    List.Sublist search name → countSub name search = search.length := by
  intro name
  induction name with
  | nil =>
    intro search h
    rw [List.sublist_nil.mp h]
    simp [countSub]
  | cons n ns ih =>
    intro search h
    cases search with
    | nil => simp [countSub]
    | cons s ss =>
      by_cases hns : n = s
      · subst hns
        have hss : List.Sublist ss ns := by
          cases h with
          | cons _ h' => exact (List.sublist_cons_self n ss).trans h'
          | cons₂ _ h' => exact h'
        simp [countSub, ih ss hss]
      · have h' : List.Sublist (s :: ss) ns := by
          cases h with
          | cons _ h' => exact h'
          | cons₂ _ h' => exact absurd rfl hns
        simp [countSub, if_neg hns, ih (s :: ss) h']

theorem countSub_sublist : ∀ (name search : List Char),
    countSub name search = search.length → List.Sublist search name := by
  intro name
  induction name with
  | nil =>
    intro search h
    cases search with
    | nil => exact List.nil_sublist []
    | cons s ss => simp [countSub] at h
  | cons n ns ih =>
    intro search h
    cases search with
    | nil => exact List.nil_sublist _
    | cons s ss =>
      by_cases hns : n = s
      · subst hns
        simp only [countSub, if_true, eq_self_iff_true, List.length_cons,
          Nat.add_right_cancel_iff] at h
        exact List.Sublist.cons₂ n (ih ss h)
      · simp only [countSub, if_neg hns] at h
        exact List.Sublist.cons n (ih (s :: ss) h)

theorem countSub_eq_iff_sublist (name search : List Char) :
    countSub name search = search.length ↔ List.Sublist search name :=
  ⟨countSub_sublist name search, sublist_countSub name search⟩

theorem splitOnDelim_ne_nil (l : List Char) : splitOnDelim l ≠ [] := by
  cases l with
  | nil => simp [splitOnDelim]
  | cons c cs =>
    by_cases h : c = '-' ∨ c = '_'
    · simp [splitOnDelim, h]
    · simp only [splitOnDelim, if_neg h]
      cases splitOnDelim cs <;> simp

theorem splitOnDelim_head_prefixOf :
    ∀ l : List Char, (splitOnDelim l).headD [] <+: l := by
  intro l
  induction l with
  | nil => simp [splitOnDelim]
  | cons c cs ih =>
    by_cases h : c = '-' ∨ c = '_'
    · simp [splitOnDelim, h, List.nil_prefix]
    · simp only [splitOnDelim, if_neg h]
      cases hsp : splitOnDelim cs with
      | nil => exact absurd hsp (splitOnDelim_ne_nil cs)
      | cons t ts =>
        rw [hsp] at ih
        simp only [List.headD_cons] at ih ⊢
        obtain ⟨r, hr⟩ := ih
        exact ⟨r, by simp [← hr]⟩

theorem mem_splitOnDelim_infixOf :
    ∀ (l t : List Char), t ∈ splitOnDelim l → t <:+: l := by
  intro l
  induction l with
  | nil =>
    intro t ht
    simp [splitOnDelim] at ht
    simp [ht, List.nil_infix]
  | cons c cs ih =>
    intro t ht
    by_cases h : c = '-' ∨ c = '_'
    · simp only [splitOnDelim, if_pos h, List.mem_cons] at ht
      rcases ht with rfl | ht
      · exact List.nil_infix
      · exact List.infix_cons (ih t ht)
    · simp only [splitOnDelim, if_neg h] at ht
      cases hsp : splitOnDelim cs with
      | nil => exact absurd hsp (splitOnDelim_ne_nil cs)
      | cons u us =>
        rw [hsp] at ht
        simp only [List.mem_cons] at ht
        rcases ht with rfl | ht
        · have hu : u <+: cs := by
            have := splitOnDelim_head_prefixOf cs
            rw [hsp] at this
            simpa using this
          obtain ⟨r, hr⟩ := hu
          exact List.IsPrefix.isInfix ⟨r, by simp [← hr]⟩
        · exact List.infix_cons (ih t (by rw [hsp]; exact List.mem_cons_of_mem u ht))

theorem natDigitsAux_ne_nil :
    ∀ (fuel n : ℕ) (acc : List Char), acc ≠ [] → natDigitsAux fuel n acc ≠ [] := by
  intro fuel
  induction fuel with
  | zero => intro n acc h; simpa [natDigitsAux] using h
  | succ f ih =>
    intro n acc h
    by_cases hn : n < 10
    · simp [natDigitsAux, hn]
    · simpa [natDigitsAux, hn] using ih (n / 10) (Nat.digitChar (n % 10) :: acc) (by simp)

theorem natDigits_ne_nil (n : ℕ) : natDigits n ≠ [] := by
  unfold natDigits natDigitsAux
  by_cases hn : n < 10
  · simp [hn]
  · simpa [hn] using natDigitsAux_ne_nil n (n / 10) (Nat.digitChar (n % 10) :: []) (by simp)

theorem digitChar_isDigit : ∀ d, d < 10 → (Nat.digitChar d).isDigit = true := by
  decide

theorem natDigitsAux_isDigit :
    ∀ (fuel n : ℕ) (acc : List Char), (∀ c ∈ acc, c.isDigit = true) →
      ∀ c ∈ natDigitsAux fuel n acc, c.isDigit = true := by
  intro fuel
  induction fuel with
  | zero => intro n acc h; simpa [natDigitsAux] using h
  | succ f ih =>
    intro n acc h c hc
    by_cases hn : n < 10
    · simp only [natDigitsAux, if_pos hn, List.mem_cons] at hc
      rcases hc with rfl | hc
      · exact digitChar_isDigit n hn
      · exact h c hc
    · refine ih (n / 10) (Nat.digitChar (n % 10) :: acc) ?_ c ?_
      · intro d hd
        simp only [List.mem_cons] at hd
        rcases hd with rfl | hd
        · exact digitChar_isDigit _ (Nat.mod_lt n (by omega))
        · exact h d hd
      · simpa [natDigitsAux, hn] using hc

theorem natDigits_isDigit (n : ℕ) : ∀ c ∈ natDigits n, c.isDigit = true :=
  natDigitsAux_isDigit (n + 1) n [] (by simp)

theorem padTwo_ne_nil {s : List Char} (h : s ≠ []) : padTwo s ≠ [] := by
  simp [padTwo, h]

theorem padTwo_isDigit {s : List Char} (h : ∀ c ∈ s, c.isDigit = true) :
    ∀ c ∈ padTwo s, c.isDigit = true := by
  intro c hc
  simp only [padTwo, List.mem_append, List.mem_replicate] at hc
  rcases hc with ⟨-, rfl⟩ | hc
  · decide
  · exact h c hc

theorem takeWhile_append_all {p : Char → Bool} :
    ∀ {l₁ : List Char} (l₂ : List Char), (∀ c ∈ l₁, p c = true) →
      (l₁ ++ l₂).takeWhile p = l₁ ++ l₂.takeWhile p ∧
        (l₁ ++ l₂).dropWhile p = l₂.dropWhile p := by
  intro l₁
  induction l₁ with
  | nil => intro l₂ h; simp
  | cons c cs ih =>
    intro l₂ h
    have hc : p c = true := h c (List.mem_cons_self c cs)
    have := ih l₂ (fun d hd => h d (List.mem_cons_of_mem c hd))
    simp [List.takeWhile_cons, List.dropWhile_cons, hc, this.1, this.2]

theorem rankCapture_formatLabel (i : ℕ) (name : List Char) (hne : name ≠ [])
    (hhead : ∀ c, name.head? = some c → isJsSpace c = false)
    (hterm : ∀ c ∈ name, isLineTerm c = false) :
    rankCapture (formatLabel i name) = some name := by
  cases name with
  | nil => exact absurd rfl hne
  | cons a name' =>
    have hsp : isJsSpace a = false := hhead a rfl
    have hdig := padTwo_isDigit (natDigits_isDigit i)
    have hdnn := padTwo_ne_nil (natDigits_ne_nil i)
    have hsplit := takeWhile_append_all (p := Char.isDigit)
      ('.' :: ' ' :: a :: name') hdig
    have hdot : ('.' : Char).isDigit = false := by decide
    have htw : (formatLabel i (a :: name')).takeWhile Char.isDigit = padTwo (natDigits i) := by
      rw [formatLabel, hsplit.1, List.takeWhile_cons, if_neg (by simp [hdot])]
      simp
    have hdw : (formatLabel i (a :: name')).dropWhile Char.isDigit =
        '.' :: ' ' :: a :: name' := by
      rw [formatLabel, hsplit.2, List.dropWhile_cons, if_neg (by simp [hdot])]
    rw [rankCapture, htw, hdw]
    rw [if_neg hdnn]
    have hsuffix : (' ' :: a :: name').dropWhile isJsSpace = a :: name' := by
      rw [List.dropWhile_cons, if_pos (by decide), List.dropWhile_cons, if_neg (by simp [hsp])]
    simp only [hsuffix]
    rw [if_neg (by simp)]
    have hany : (a :: name').any isLineTerm = false := by
      rw [List.any_eq_false]
      intro c hc
      simp [hterm c hc]
    simp [hany]

/-! ## Lemmas about the similarity and score functions -/

theorem calculateKeywordSimilarity_exact (q p : List Char) (hq : q ≠ [])
    (h : jsToLower p = jsToLower q) :
    CommandHandlers.calculateKeywordSimilarity q p = 1 := by
  have hp : p ≠ [] := by
    intro hnil
    rw [hnil] at h
    exact hq (jsToLower_eq_nil.mp h.symm)
  simp only [CommandHandlers.calculateKeywordSimilarity]
  rw [if_neg (by simp [hq, hp]), if_pos h.symm]

theorem calculateKeywordSimilarity_le_of_ne (q p : List Char)
    (h : jsToLower p ≠ jsToLower q) :
    CommandHandlers.calculateKeywordSimilarity q p ≤ 3/5 := by
  simp only [CommandHandlers.calculateKeywordSimilarity]
  by_cases h0 : q = [] ∨ p = []
  · rw [if_pos h0]; norm_num
  · rw [if_neg h0, if_neg (fun hh => h hh.symm)]
    by_cases h2 : jsToLower q <+: jsToLower p
    · rw [if_pos h2]
    · rw [if_neg h2]
      by_cases h3 : jsToLower q <:+: jsToLower p
      · rw [if_pos h3]
        by_cases h4 : jsToLower q ∈ splitOnDelim (jsToLower p)
        · rw [if_pos h4]; norm_num
        · rw [if_neg h4]; norm_num
      · rw [if_neg h3]
        by_cases h5 : countSub (jsToLower p) (jsToLower q) = (jsToLower q).length
        · rw [if_pos h5]
          have hp : p ≠ [] := fun hh => h0 (Or.inr hh)
          have hlen : 0 < (jsToLower p).length := by
            cases hl : jsToLower p with
            | nil => exact absurd (jsToLower_eq_nil.mp hl) hp
            | cons c cs => simp
          have hk := countSub_le_length (jsToLower p) (jsToLower q)
          have hdiv : ((countSub (jsToLower p) (jsToLower q) : ℚ) /
              ((jsToLower p).length : ℚ)) ≤ 1 := by
            rw [div_le_one (by exact_mod_cast hlen)]
            exact_mod_cast hk
          calc ((countSub (jsToLower p) (jsToLower q) : ℚ) /
                ((jsToLower p).length : ℚ)) * (1/10)
              ≤ 1 * (1/10) := by
                apply mul_le_mul_of_nonneg_right hdiv
                norm_num
            _ ≤ 3/5 := by norm_num
        · rw [if_neg h5]; norm_num

theorem calculateKeywordSimilarity_nonneg (q p : List Char) :
    0 ≤ CommandHandlers.calculateKeywordSimilarity q p := by
  simp only [CommandHandlers.calculateKeywordSimilarity]
  by_cases h0 : q = [] ∨ p = []
  · rw [if_pos h0]
  · rw [if_neg h0]
    by_cases h1 : jsToLower q = jsToLower p
    · rw [if_pos h1]; norm_num
    · rw [if_neg h1]
      by_cases h2 : jsToLower q <+: jsToLower p
      · rw [if_pos h2]; norm_num
      · rw [if_neg h2]
        by_cases h3 : jsToLower q <:+: jsToLower p
        · rw [if_pos h3]
          by_cases h4 : jsToLower q ∈ splitOnDelim (jsToLower p)
          · rw [if_pos h4]; norm_num
          · rw [if_neg h4]; norm_num
        · rw [if_neg h3]
          by_cases h5 : countSub (jsToLower p) (jsToLower q) = (jsToLower q).length
          · rw [if_pos h5]
            positivity
          · rw [if_neg h5]

/-! ## Lemmas about the bootstrap machines -/

namespace VenvManager

theorem pollAux_count_bounds (dirAt pyAt : ℕ → Bool) :
    ∀ (remaining attempt : ℕ) (vc pe : Bool),
      attempt ≤ (pollAux dirAt pyAt remaining attempt vc pe).1 ∧
        (pollAux dirAt pyAt remaining attempt vc pe).1 ≤ attempt + remaining := by
  intro remaining
  induction remaining with
  | zero => intro attempt vc pe; simp [pollAux]
  | succ r ih =>
    intro attempt vc pe
    simp only [pollAux]
    by_cases hd : dirAt attempt = true
    · rw [if_pos hd]
      by_cases hp : pyAt attempt = true
      · rw [if_pos hp]
        show attempt ≤ attempt + 1 ∧ attempt + 1 ≤ attempt + (r + 1)
        omega
      · rw [if_neg hp]
        have := ih (attempt + 1) (dirAt attempt) (pyAt attempt)
        omega
    · rw [if_neg hd]
      have := ih (attempt + 1) (dirAt attempt) pe
      omega

theorem pollAux_first_ready (dirAt pyAt : ℕ → Bool) :
    ∀ (remaining attempt : ℕ) (vc pe : Bool) (i : ℕ),
      attempt ≤ i → i < attempt + remaining →
      dirAt i = true → pyAt i = true →
      (∀ j, attempt ≤ j → j < i → ¬(dirAt j = true ∧ pyAt j = true)) →
      pollAux dirAt pyAt remaining attempt vc pe = (i + 1, true, true) := by
  intro remaining
  induction remaining with
  | zero => intro attempt vc pe i h1 h2 _ _ _; omega
  | succ r ih =>
    intro attempt vc pe i h1 h2 hd hp hmin
    by_cases hcur : attempt = i
    · subst hcur
      simp [pollAux, hd, hp]
    · have hlt : attempt < i := by omega
      have hnot := hmin attempt (le_refl attempt) hlt
      simp only [pollAux]
      by_cases hda : dirAt attempt = true
      · have hpa : ¬ pyAt attempt = true := fun hpa => hnot ⟨hda, hpa⟩
        rw [if_pos hda, if_neg hpa]
        exact ih (attempt + 1) (dirAt attempt) (pyAt attempt) i (by omega) (by omega) hd hp
          (fun j hj1 hj2 => hmin j (by omega) hj2)
      · rw [if_neg hda]
        exact ih (attempt + 1) (dirAt attempt) pe i (by omega) (by omega) hd hp
          (fun j hj1 hj2 => hmin j (by omega) hj2)

theorem pollAux_never_ready (dirAt pyAt : ℕ → Bool) :
    ∀ (remaining attempt : ℕ) (vc pe : Bool),
      (∀ j, ¬(dirAt j = true ∧ pyAt j = true)) →
      ¬(vc = true ∧ pe = true) →
      (pollAux dirAt pyAt remaining attempt vc pe).1 = attempt + remaining ∧
        ¬((pollAux dirAt pyAt remaining attempt vc pe).2.1 = true ∧
          (pollAux dirAt pyAt remaining attempt vc pe).2.2 = true) := by
  intro remaining
  induction remaining with
  | zero => intro attempt vc pe _ hvp; simpa [pollAux] using hvp
  | succ r ih =>
    intro attempt vc pe hnever hvp
    simp only [pollAux]
    by_cases hd : dirAt attempt = true
    · have hp : ¬ pyAt attempt = true := fun hp => hnever attempt ⟨hd, hp⟩
      rw [if_pos hd, if_neg hp]
      have hrec := ih (attempt + 1) (dirAt attempt) (pyAt attempt) hnever
        (fun hc => hp hc.2)
      exact ⟨by rw [hrec.1]; omega, hrec.2⟩
    · rw [if_neg hd]
      have hrec := ih (attempt + 1) (dirAt attempt) pe hnever
        (fun hc => hd hc.1)
      exact ⟨by rw [hrec.1]; omega, hrec.2⟩

/-- All states a lone first call can reach from the initial state. -/
def chainInv (s : MState) : Prop :=
  s = initState ∨
  s = { flag := true, cmds := 0, pc1 := .acquired, pc2 := .start } ∨
  s = { flag := true, cmds := 1, pc1 := .dispatched, pc2 := .start } ∨
  s = { flag := false, cmds := 1, pc1 := .done, pc2 := .start }

theorem chainInv_step {s : MState} (h : chainInv s) : chainInv (step s true) := by
  rcases h with rfl | rfl | rfl | rfl
  · right; left; rfl
  · right; right; left; rfl
  · right; right; right; rfl
  · right; right; right; rfl

theorem chainInv_run (s₁ : List Bool) (hall : ∀ x ∈ s₁, x = true) :
    chainInv (run initState s₁) := by
  suffices h : ∀ (l : List Bool) (s : MState), (∀ x ∈ l, x = true) → chainInv s →
      chainInv (run s l) by
    exact h s₁ initState hall (Or.inl rfl)
  intro l
  induction l with
  | nil => intro s _ hs; exact hs
  | cons x xs ih =>
    intro s hx hs
    have hxt : x = true := hx x (List.mem_cons_self x xs)
    subst hxt
    exact ih (step s true) (fun y hy => hx y (List.mem_cons_of_mem true hy))
      (chainInv_step hs)

/-- Invariant once the second call has observed the busy flag and exited:
from then on only the first call moves, finishing with exactly one dispatch
and a clear flag. -/
def afterSkipInv (s : MState) : Prop :=
  s.pc2 = .done ∧
  ((s.pc1 = .acquired ∧ s.flag = true ∧ s.cmds = 0) ∨
   (s.pc1 = .dispatched ∧ s.flag = true ∧ s.cmds = 1) ∨
   (s.pc1 = .done ∧ s.flag = false ∧ s.cmds = 1))

theorem afterSkipInv_step {s : MState} (t : Bool) (h : afterSkipInv s) :
    afterSkipInv (step s t) := by
  obtain ⟨f, c, p1, p2⟩ := s
  obtain ⟨h2, h1⟩ := h
  dsimp only at h2 h1
  subst h2
  rcases h1 with ⟨rfl, rfl, rfl⟩ | ⟨rfl, rfl, rfl⟩ | ⟨rfl, rfl, rfl⟩ <;>
    cases t <;> simp [afterSkipInv, step, stepThread]

theorem afterSkipInv_run (l : List Bool) :
    ∀ s : MState, afterSkipInv s → afterSkipInv (run s l) := by
  induction l with
  | nil => intro s hs; exact hs
  | cons x xs ih => intro s hs; exact ih (step s x) (afterSkipInv_step x hs)

end VenvManager

namespace UvManager

theorem probeStep_after_found (outcomes : Fin 4 → Bool) (s : ProbeState) (p q : Fin 4)
    (h : s.foundPath = some q) :
    probeStep outcomes s p =
      { foundPath := s.foundPath, checkedPaths := s.checkedPaths + 1,
        res := s.res, resolvedAt := s.resolvedAt } := by
  unfold probeStep
  rw [if_neg (by simp [h]), if_neg (by simp [h])]

theorem foldl_after_found (outcomes : Fin 4 → Bool) :
    ∀ (l : List (Fin 4)) (s : ProbeState) (q : Fin 4), s.foundPath = some q →
      List.foldl (probeStep outcomes) s l =
        { foundPath := s.foundPath, checkedPaths := s.checkedPaths + l.length,
          res := s.res, resolvedAt := s.resolvedAt } := by
  intro l
  induction l with
  | nil => intro s q h; cases s; simp
  | cons p ps ih =>
    intro s q h
    rw [List.foldl_cons, probeStep_after_found outcomes s p q h, ih _ q (by simp [h])]
    simp only [List.length_cons]
    congr 1
    omega

theorem foldl_fail_short (outcomes : Fin 4 → Bool) :
    ∀ (l : List (Fin 4)) (c : ℕ), (∀ p ∈ l, outcomes p = false) → c + l.length < 4 →
      List.foldl (probeStep outcomes) ⟨none, c, none, none⟩ l =
        ⟨none, c + l.length, none, none⟩ := by
  intro l
  induction l with
  | nil => intro c _ _; simp
  | cons p ps ih =>
    intro c hall hlen
    have hp : outcomes p = false := hall p (List.mem_cons_self p ps)
    rw [List.foldl_cons]
    have hc4 : ¬ (c + 1 = 4) := by
      simp only [List.length_cons] at hlen
      omega
    have hstep : probeStep outcomes ⟨none, c, none, none⟩ p =
        ⟨none, c + 1, none, none⟩ := by
      unfold probeStep
      rw [if_neg (by simp [hp]), if_neg (fun hcond => hc4 hcond.1)]
    rw [hstep, ih (c + 1) (fun q hq => hall q (List.mem_cons_of_mem p hq))
      (by simp only [List.length_cons] at hlen; omega)]
    simp only [List.length_cons]
    congr 1
    omega

theorem foldl_fail_exact (outcomes : Fin 4 → Bool) :
    ∀ (l : List (Fin 4)) (c : ℕ), (∀ p ∈ l, outcomes p = false) → l ≠ [] →
      c + l.length = 4 →
      List.foldl (probeStep outcomes) ⟨none, c, none, none⟩ l =
        ⟨none, 4, some false, some 4⟩ := by
  intro l
  induction l with
  | nil => intro c _ hne _; exact absurd rfl hne
  | cons p ps ih =>
    intro c hall _ hlen
    have hp : outcomes p = false := hall p (List.mem_cons_self p ps)
    rw [List.foldl_cons]
    cases ps with
    | nil =>
      have hc : c + 1 = 4 := by simpa using hlen
      have hstep : probeStep outcomes ⟨none, c, none, none⟩ p =
          ⟨none, 4, some false, some 4⟩ := by
        unfold probeStep
        rw [if_neg (by simp [hp]), if_pos ⟨hc, rfl⟩]
        simp [resolveP, hc]
      rw [hstep]
      simp
    | cons q qs =>
      have hc4 : ¬ (c + 1 = 4) := by
        simp only [List.length_cons] at hlen
        omega
      have hstep : probeStep outcomes ⟨none, c, none, none⟩ p =
          ⟨none, c + 1, none, none⟩ := by
        unfold probeStep
        rw [if_neg (by simp [hp]), if_neg (fun hcond => hc4 hcond.1)]
      rw [hstep]
      exact ih (c + 1) (fun r hr => hall r (List.mem_cons_of_mem p hr))
        (by simp) (by simp only [List.length_cons] at hlen ⊢; omega)

/-- Decompose a list at the first element satisfying `P`. -/
theorem exists_first_decomp {α : Type} (P : α → Prop) [DecidablePred P] :
    ∀ (l : List α), (∃ x ∈ l, P x) →
      ∃ l₁ x l₂, l = l₁ ++ x :: l₂ ∧ (∀ y ∈ l₁, ¬ P y) ∧ P x := by
  intro l
  induction l with
  | nil => rintro ⟨x, hx, -⟩; simp at hx
  | cons a as ih =>
    rintro ⟨x, hx, hPx⟩
    by_cases hPa : P a
    · exact ⟨[], a, as, by simp, by simp, hPa⟩
    · have hxas : x ∈ as := by
        rcases List.mem_cons.mp hx with rfl | h
        · exact absurd hPx hPa
        · exact h
      obtain ⟨l₁, y, l₂, heq, hnone, hPy⟩ := ih ⟨x, hxas, hPx⟩
      exact ⟨a :: l₁, y, l₂, by simp [heq], by
        intro z hz
        rcases List.mem_cons.mp hz with rfl | hz
        · exact hPa
        · exact hnone z hz, hPy⟩

theorem runProbes_success (outcomes : Fin 4 → Bool) (l₁ : List (Fin 4)) (p : Fin 4)
    (l₂ : List (Fin 4)) (hlen : (l₁ ++ p :: l₂).length = 4)
    (hfail : ∀ q ∈ l₁, outcomes q = false) (hp : outcomes p = true) :
    runProbes outcomes (l₁ ++ p :: l₂) =
      ⟨some p, 4, some true, some (l₁.length + 1)⟩ := by
  have hl1 : l₁.length + 1 + l₂.length = 4 := by
    simp only [List.length_append, List.length_cons] at hlen
    omega
  unfold runProbes
  rw [List.foldl_append, foldl_fail_short outcomes l₁ 0 hfail (by omega), List.foldl_cons]
  have hstep : probeStep outcomes ⟨none, 0 + l₁.length, none, none⟩ p =
      ⟨some p, 0 + l₁.length + 1, some true, some (0 + l₁.length + 1)⟩ := by
    unfold probeStep
    rw [if_pos ⟨hp, rfl⟩]
    simp [resolveP]
  rw [hstep, foldl_after_found outcomes l₂ _ p (by simp)]
  simp only [Nat.zero_add]
  rw [show l₁.length + 1 + l₂.length = 4 from by omega]

theorem runProbes_all_fail (outcomes : Fin 4 → Bool) (order : List (Fin 4))
    (hlen : order.length = 4) (hfail : ∀ q ∈ order, outcomes q = false) :
    runProbes outcomes order = ⟨none, 4, some false, some 4⟩ := by
  unfold runProbes
  exact foldl_fail_exact outcomes order 0 hfail
    (by intro h; rw [h] at hlen; simp at hlen) (by omega)

end UvManager

/-! ## Lemmas relating the pipeline normalization to the claimed formula -/

theorem foldl_max_eq_foldr (ds : List ℕ) :
    ∀ d : ℕ, ds.foldl max d = max d (ds.foldr max 0) := by
  induction ds with
  | nil => intro d; simp
  | cons x xs ih =>
    intro d
    simp only [List.foldl_cons, List.foldr_cons, ih (max d x)]
    omega

theorem codeMaxDownloads_eq (names : List PackageRecord) (filter : List Char) :
    codeMaxDownloads names filter = ((specMaxD names filter : ℕ) : ℚ) := by
  unfold codeMaxDownloads specMaxD
  cases h : (codeTopMatches names filter).map dcOf with
  | nil => simp
  | cons d ds =>
    simp only []
    rw [foldl_max_eq_foldr ds d]
    simp [List.foldr_cons]

theorem weightedScore_eq_spec (p : PackageRecord) (q : List Char) (M : ℕ) :
    CommandHandlers.calculateWeightedScore p q ((M : ℕ) : ℚ) = specWeightedScore p q M := by
  unfold CommandHandlers.calculateWeightedScore specWeightedScore
  by_cases hM : M = 0
  · subst hM
    rw [if_neg (by norm_num), if_pos rfl]
    push_cast
    rw [Real.sqrt_zero]
    ring
  · have hM' : 0 < ((M : ℕ) : ℚ) := by exact_mod_cast Nat.pos_of_ne_zero hM
    rw [if_pos hM', if_neg hM]
    rw [show ((1 : ℝ) / 2) = (1 / 2 : ℝ) from rfl, ← Real.sqrt_eq_rpow]
    push_cast
    ring

/-! ## The claims -/

/-- Claim C9: the two near-duplicate search implementations compute the same
similarity function for all inputs, and their weighted-score functions agree
on every package, query and maxD except for the download-score exponent —
commandHandlers.js raises the normalized download score to the power 0.5
(square root) and commandBase.js to the power 2, with the 0.8/0.2 weights and
the maxD-is-0 guard identical in both (the shared shape is
`genWeightedScore`). -/
theorem claim_C9 :
    (∀ q n : List Char,
      CommandHandlers.calculateKeywordSimilarity q n =
        CommandBase.calculateKeywordSimilarity q n) ∧
    (∀ (p : PackageRecord) (q : List Char) (m : ℚ),
      CommandHandlers.calculateWeightedScore p q m = genWeightedScore Real.sqrt p q m) ∧
    (∀ (p : PackageRecord) (q : List Char) (m : ℚ),
      CommandBase.calculateWeightedScore p q m =
        genWeightedScore (fun x => x ^ (2 : ℕ)) p q m) :=
  ⟨fun _ _ => rfl, fun _ _ _ => rfl, fun _ _ _ => rfl⟩

/-- Claim C10: `getProjectNameFromQuickPick` is total at the public
interface — it returns (never throws), yielding null exactly when the item
is null/undefined or its label is absent or empty (`!item || !item.label`),
and a string (the label with any rank prefix stripped) otherwise; both the
commandHandlers.js and commandBase.js copies behave this way. -/
theorem claim_C10 :
    ∀ item : Option QuickPickItem,
      ((item = none ∨ ∃ it, item = some it ∧ (it.label = none ∨ it.label = some [])) →
        CommandHandlers.getProjectNameFromQuickPick item = none ∧
          CommandBase.getProjectNameFromQuickPick item = none) ∧
      (∀ it l, item = some it → it.label = some l → l ≠ [] →
        CommandHandlers.getProjectNameFromQuickPick item = some (stripRankLabel l) ∧
          CommandBase.getProjectNameFromQuickPick item = some (stripRankLabel l)) := by
  intro item
  constructor
  · rintro (rfl | ⟨it, rfl, hl | hl⟩)
    · exact ⟨rfl, rfl⟩
    · simp [CommandHandlers.getProjectNameFromQuickPick,
        CommandBase.getProjectNameFromQuickPick, hl]
    · simp [CommandHandlers.getProjectNameFromQuickPick,
        CommandBase.getProjectNameFromQuickPick, hl]
  · rintro it l rfl hl hne
    simp [CommandHandlers.getProjectNameFromQuickPick,
      CommandBase.getProjectNameFromQuickPick, hl, hne]

/-- Witness for claim C10 at a concrete labelled item. -/
theorem claim_C10_witness :
    CommandHandlers.getProjectNameFromQuickPick
        (some ⟨some ('0' :: '1' :: '.' :: ' ' :: 'n' :: [])⟩) =
      some (stripRankLabel ('0' :: '1' :: '.' :: ' ' :: 'n' :: [])) ∧
    CommandBase.getProjectNameFromQuickPick
        (some ⟨some ('0' :: '1' :: '.' :: ' ' :: 'n' :: [])⟩) =
      some (stripRankLabel ('0' :: '1' :: '.' :: ' ' :: 'n' :: [])) :=
  (claim_C10 (some ⟨some ('0' :: '1' :: '.' :: ' ' :: 'n' :: [])⟩)).2
    ⟨some ('0' :: '1' :: '.' :: ' ' :: 'n' :: [])⟩
    ('0' :: '1' :: '.' :: ' ' :: 'n' :: []) rfl rfl (by decide)

/-- Counterexample to claim C7 as stated: the name `" x"` does not itself
match the rank-prefix pattern, yet stripping its label does not recover it —
the greedy `\s*` of the pattern also swallows the name's leading space, so
`stripRankPrefix (formatLabel 1 " x") = "x" ≠ " x"`. -/
theorem claim_C7_counterexample : ¬ C7Statement := by
  intro h
  have h1 := h.1 1 (' ' :: 'x' :: []) (le_refl 1) (by decide)
  have h2 : stripRankLabel (formatLabel 1 (' ' :: 'x' :: [])) = ('x' :: []) := by decide
  rw [h2] at h1
  exact absurd h1 (by decide)

/-- Claim C7 amended: stripping the rank prefix inverts labeling for every
rank `i ≥ 1` and every name that does not itself match the rank-prefix
pattern, provided additionally the name is non-empty, does not start with a
whitespace character (otherwise the pattern's greedy `\s*` swallows it) and
contains no line-terminator character (which `(.+)` cannot match); and a
label carrying no prefix is returned unchanged. -/
theorem claim_C7_amended :
    (∀ (i : ℕ) (name : List Char), 1 ≤ i → rankCapture name = none →
      name ≠ [] →
      (∀ c, name.head? = some c → isJsSpace c = false) →
      (∀ c ∈ name, isLineTerm c = false) →
      stripRankLabel (formatLabel i name) = name) ∧
    (∀ label : List Char, rankCapture label = none → stripRankLabel label = label) := by
  constructor
  · intro i name _ _ hne hhead hterm
    rw [stripRankLabel, rankCapture_formatLabel i name hne hhead hterm]
    rfl
  · intro label h
    rw [stripRankLabel, h]
    rfl

/-- Witness for the amended claim C7 at rank 1 and name `"n"`. -/
theorem claim_C7_witness :
    stripRankLabel (formatLabel 1 ('n' :: [])) = ('n' :: []) ∧
      stripRankLabel ('n' :: []) = ('n' :: []) :=
  ⟨claim_C7_amended.1 1 ('n' :: []) (le_refl 1) (by decide) (by decide)
      (by intro c hc; simp at hc; subst hc; decide)
      (by intro c hc; simp at hc; subst hc; decide),
    claim_C7_amended.2 ('n' :: []) (by decide)⟩

/-- Counterexample to claim C8 as stated: the search is not free of effects
on the fetched records — for the one-package list `[{project: "a",
download_count: 1}]` and query `"a"`, the `forEach` of `updateItems` assigns
a `_weightedScore` property on the matching record, so the process-wide list
is not left unchanged. -/
theorem claim_C8_counterexample : ¬ C8Statement := by
  intro h
  have hx := h [⟨'a' :: [], some 1, none⟩] ('a' :: [])
  have hcond : (⟨'a' :: [], some 1, none⟩ : PackageRecord).project ≠ [] ∧
      jsToLower ('a' :: []) <:+:
        jsToLower (⟨'a' :: [], some 1, none⟩ : PackageRecord).project :=
    ⟨by decide, by decide⟩
  simp only [updateItemsEffect] at hx
  rw [if_neg (by decide), List.map_cons, List.map_nil, if_pos hcond] at hx
  simp [PackageRecord.mk.injEq] at hx

/-- Claim C8 amended: the ranked search never adds, removes or reorders
records and never changes a record's `project` or `download_count`; its only
effect on the process-wide list is writing the auxiliary `_weightedScore`
property of the matching records (non-matching records are returned as-is). -/
theorem claim_C8_amended :
    ∀ (names : List PackageRecord) (value : List Char),
      (updateItemsEffect names value).map (fun p => (p.project, p.download_count)) =
        names.map (fun p => (p.project, p.download_count)) ∧
      (∀ p ∈ names, ¬(p.project ≠ [] ∧ jsToLower value <:+: jsToLower p.project) →
        p ∈ updateItemsEffect names value) := by
  intro names value
  constructor
  · simp only [updateItemsEffect]
    by_cases hf : jsToLower value = []
    · rw [if_pos hf]
    · rw [if_neg hf, List.map_map]
      apply List.map_congr_left
      intro p hp
      by_cases hc : p.project ≠ [] ∧ jsToLower value <:+: jsToLower p.project
      · simp [hc]
      · simp [if_neg hc]
  · intro p hp hnc
    simp only [updateItemsEffect]
    by_cases hf : jsToLower value = []
    · rw [if_pos hf]; exact hp
    · rw [if_neg hf]
      have heq : (if p.project ≠ [] ∧ jsToLower value <:+: jsToLower p.project then
          ({ project := p.project, download_count := p.download_count,
             weightedScore := some (CommandHandlers.calculateWeightedScore p
               (jsToLower value) (codeMaxDownloads names (jsToLower value))) } :
            PackageRecord)
        else p) = p := if_neg hnc
      exact heq ▸ List.mem_map_of_mem _ hp

/-- Witness for the amended claim C8: a record that does not match the query
is returned in the effect list unchanged. -/
theorem claim_C8_witness :
    (⟨'b' :: [], none, none⟩ : PackageRecord) ∈
      updateItemsEffect [⟨'b' :: [], none, none⟩] ('z' :: []) :=
  (claim_C8_amended [⟨'b' :: [], none, none⟩] ('z' :: [])).2
    ⟨'b' :: [], none, none⟩ (List.mem_cons_self _ _) (by decide)

/-- Counterexample to claim C5 as stated: for the empty query and name
`"a"`, the claimed ladder yields 0.6 (every name starts with the empty
string) but the code's falsy-argument guard returns 0. -/
theorem claim_C5_counterexample : ¬ C5Statement := by
  intro h
  have hx := h [] ('a' :: [])
  have h1 : CommandHandlers.calculateKeywordSimilarity [] ('a' :: []) = 0 := rfl
  have h2 : claimSimilaritySpec [] ('a' :: []) = 3/5 := rfl
  rw [h1, h2] at hx
  norm_num at hx

/-- Claim C5 amended: for every non-empty query and non-empty package name
(the code returns 0 outright on falsy arguments), the similarity function
returns: 1.0 on case-insensitive equality; else 0.6 when the lowercased
name starts with the lowercased query; else 0.4 when the query is one of the
name's hyphen/underscore-delimited tokens; else 0.2 when the name merely
contains the query; otherwise (matched characters / name length) * 0.1 when
every character of the query appears in the name in order, and 0 if not. -/
theorem claim_C5_amended :
    ∀ q n : List Char, q ≠ [] → n ≠ [] →
      CommandHandlers.calculateKeywordSimilarity q n = claimSimilaritySpec q n := by
  intro q n hq hn
  simp only [CommandHandlers.calculateKeywordSimilarity, claimSimilaritySpec]
  rw [if_neg (by simp [hq, hn])]
  by_cases h1 : jsToLower q = jsToLower n
  · rw [if_pos h1, if_pos h1]
  · rw [if_neg h1, if_neg h1]
    by_cases h2 : jsToLower q <+: jsToLower n
    · rw [if_pos h2, if_pos h2]
    · rw [if_neg h2, if_neg h2]
      by_cases h4 : jsToLower q ∈ splitOnDelim (jsToLower n)
      · have h3 : jsToLower q <:+: jsToLower n := mem_splitOnDelim_infixOf _ _ h4
        rw [if_pos h3, if_pos h4, if_pos h4]
      · by_cases h3 : jsToLower q <:+: jsToLower n
        · rw [if_pos h3, if_neg h4, if_neg h4, if_pos h3]
        · rw [if_neg h3, if_neg h4, if_neg h3]
          by_cases h5 : countSub (jsToLower n) (jsToLower q) = (jsToLower q).length
          · rw [if_pos h5, if_pos ((countSub_eq_iff_sublist _ _).mp h5), h5]
          · rw [if_neg h5,
              if_neg (fun hs => h5 ((countSub_eq_iff_sublist _ _).mpr hs))]

/-- Witness for the amended claim C5 at query `"py"` and name `"numpy"`. -/
theorem claim_C5_witness :
    CommandHandlers.calculateKeywordSimilarity ('p' :: 'y' :: [])
        ('n' :: 'u' :: 'm' :: 'p' :: 'y' :: []) =
      claimSimilaritySpec ('p' :: 'y' :: []) ('n' :: 'u' :: 'm' :: 'p' :: 'y' :: []) :=
  claim_C5_amended ('p' :: 'y' :: []) ('n' :: 'u' :: 'm' :: 'p' :: 'y' :: [])
    (by decide) (by decide)

/-- Claim C4: for every non-empty query the normalization constant used by
`updateItems` is the maximum `download_count` over the top 20 of the
filtered records sorted by downloads descending, and the displayed result is
empty when the filtered set is empty; every scored record's weighted score
equals `0.8 * (download_count / maxD)^0.5 + 0.2 * similarity`, with the
download term 0 whenever `maxD` is 0 and a missing `download_count` treated
as 0 (that formula is `specWeightedScore` with maximum `specMaxD`). -/
theorem claim_C4 :
    ∀ (names : List PackageRecord) (value : List Char), value ≠ [] →
      (filterMatches names (jsToLower value) = [] → updateItems names value = []) ∧
      (∀ pr ∈ scoredList names (jsToLower value),
        pr.2 = specWeightedScore pr.1 (jsToLower value) (specMaxD names (jsToLower value))) := by
  intro names value hval
  have hfil : jsToLower value ≠ [] := fun h => hval (jsToLower_eq_nil.mp h)
  constructor
  · intro hempty
    simp only [updateItems]
    rw [if_neg hfil]
    have hscored : scoredList names (jsToLower value) = [] := by
      unfold scoredList sortByDownloads
      rw [hempty, List.mergeSort_nil, List.map_nil]
    rw [hscored]
    simp [sortByScore, List.mergeSort_nil]
  · intro pr hpr
    unfold scoredList at hpr
    rw [List.mem_map] at hpr
    obtain ⟨p, _, heq⟩ := hpr
    subst heq
    show CommandHandlers.calculateWeightedScore p (jsToLower value)
        (codeMaxDownloads names (jsToLower value)) =
      specWeightedScore p (jsToLower value) (specMaxD names (jsToLower value))
    rw [codeMaxDownloads_eq]
    exact weightedScore_eq_spec p (jsToLower value) (specMaxD names (jsToLower value))

/-- Witness for claim C4: a query matching no record yields the empty
candidate list. -/
theorem claim_C4_witness :
    updateItems [⟨'b' :: [], some 1, none⟩] ('z' :: []) = [] :=
  (claim_C4 [⟨'b' :: [], some 1, none⟩] ('z' :: []) (by decide)).1 rfl

/-- Claim C3: the polling loop of the bootstrap performs at most 15 polls
(one per second), each poll checking the `.venv` directory first and, only
if present, the interpreter inside it; it stops as soon as both are
observed — if the oracle reports both present on the 5th check (0-based
attempt 4) exactly `i + 1 = 5` polls occur and the activation outcome
follows; if the oracle never reports both, exactly 15 polls occur and the
outcome is not activation (it is the warning or creation-failed
notification, the spec's TimedOut/Warn). -/
theorem claim_C3 :
    ∀ dirAt pyAt : ℕ → Bool,
      VenvManager.pollCount dirAt pyAt ≤ 15 ∧
      (∀ i : ℕ, i < 15 → dirAt i = true → pyAt i = true →
        (∀ j, j < i → ¬(dirAt j = true ∧ pyAt j = true)) →
        VenvManager.pollCount dirAt pyAt = i + 1 ∧
          VenvManager.pollOutcome dirAt pyAt = VenvManager.VenvOutcome.activated) ∧
      ((∀ j, ¬(dirAt j = true ∧ pyAt j = true)) →
        VenvManager.pollCount dirAt pyAt = 15 ∧
          VenvManager.pollOutcome dirAt pyAt ≠ VenvManager.VenvOutcome.activated) := by
  intro dirAt pyAt
  refine ⟨?_, ?_, ?_⟩
  · have h := VenvManager.pollAux_count_bounds dirAt pyAt 15 0 false false
    have h2 := h.2
    simp only [VenvManager.pollCount, VenvManager.pollLoop]
    omega
  · intro i hi hd hp hmin
    have h := VenvManager.pollAux_first_ready dirAt pyAt 15 0 false false i
      (Nat.zero_le i) (by omega) hd hp (fun j _ hj => hmin j hj)
    constructor
    · simp [VenvManager.pollCount, VenvManager.pollLoop, h]
    · simp [VenvManager.pollOutcome, VenvManager.pollLoop, h]
  · intro hnever
    have h := VenvManager.pollAux_never_ready dirAt pyAt 15 0 false false hnever (by simp)
    constructor
    · simp only [VenvManager.pollCount, VenvManager.pollLoop]
      rw [h.1]
    · intro hout
      have h2 := h.2
      unfold VenvManager.pollOutcome at hout
      rw [show VenvManager.pollLoop dirAt pyAt =
          VenvManager.pollAux dirAt pyAt 15 0 false false from rfl] at hout
      cases hb1 : (VenvManager.pollAux dirAt pyAt 15 0 false false).2.1 <;>
        cases hb2 : (VenvManager.pollAux dirAt pyAt 15 0 false false).2.2
      · simp [hb1, hb2] at hout
      · simp [hb1, hb2] at hout
      · simp [hb1, hb2] at hout
      · exact h2 ⟨hb1, hb2⟩

/-- Witness for claim C3 at the oracle that reports both directory and
interpreter from the 5th check on: exactly 5 polls, then activation. -/
theorem claim_C3_witness :
    VenvManager.pollCount (fun i => decide (4 ≤ i)) (fun i => decide (4 ≤ i)) = 5 ∧
      VenvManager.pollOutcome (fun i => decide (4 ≤ i)) (fun i => decide (4 ≤ i)) =
        VenvManager.VenvOutcome.activated :=
  (claim_C3 (fun i => decide (4 ≤ i)) (fun i => decide (4 ≤ i))).2.1 4
    (by omega) (by decide) (by decide)
    (fun j hj => by
      rintro ⟨hc, -⟩
      simp at hc
      omega)

/-- Claim C2: when a second bootstrap call's guard check runs while the
first call is between acquiring `venvCreationInProgress` and its cleanup
(schedule `s₁` of first-call steps leaving it acquired or dispatched, then
the second call's first step, then anything), the second call exits at once
without dispatching, so a completed run has sent exactly one `uv venv` line
and the flag ends false; and on the sequential model, every call that
acquires the guard (entry flag clear, venv absent) leaves the flag false on
every exit path — missing workspace, lost double-check race, normal
completion, and both exception points, whether or not the fallback dispatch
itself succeeds. -/
theorem claim_C2 :
    (∀ s₁ s₂ : List Bool, (∀ x ∈ s₁, x = true) →
      ((VenvManager.run VenvManager.initState s₁).pc1 = VenvManager.PC.acquired ∨
        (VenvManager.run VenvManager.initState s₁).pc1 = VenvManager.PC.dispatched) →
      (VenvManager.run VenvManager.initState (s₁ ++ false :: s₂)).pc1 =
        VenvManager.PC.done →
      (VenvManager.run VenvManager.initState (s₁ ++ false :: s₂)).cmds = 1 ∧
        (VenvManager.run VenvManager.initState (s₁ ++ false :: s₂)).flag = false ∧
        (VenvManager.run VenvManager.initState (s₁ ++ false :: s₂)).pc2 =
          VenvManager.PC.done) ∧
    (∀ (w d : Bool) (e : VenvManager.BodyErr) (f : Bool),
      (VenvManager.createVenvCall false false w d e f).1 = false) := by
  constructor
  · intro s₁ s₂ hall hpc hdone
    have hchain := VenvManager.chainInv_run s₁ hall
    have hrun : VenvManager.run VenvManager.initState (s₁ ++ false :: s₂) =
        VenvManager.run
          (VenvManager.step (VenvManager.run VenvManager.initState s₁) false) s₂ := by
      simp [VenvManager.run, List.foldl_append]
    have hmid : VenvManager.afterSkipInv
        (VenvManager.step (VenvManager.run VenvManager.initState s₁) false) := by
      rcases hchain with hc | hc | hc | hc
      · rw [hc] at hpc
        rcases hpc with hpc | hpc <;> simp [VenvManager.initState] at hpc
      · rw [hc]
        exact ⟨rfl, Or.inl ⟨rfl, rfl, rfl⟩⟩
      · rw [hc]
        exact ⟨rfl, Or.inr (Or.inl ⟨rfl, rfl, rfl⟩)⟩
      · rw [hc] at hpc
        rcases hpc with hpc | hpc <;> simp at hpc
    have hfin := VenvManager.afterSkipInv_run s₂ _ hmid
    rw [← hrun] at hfin
    obtain ⟨h2, h1⟩ := hfin
    rcases h1 with ⟨hp, -, -⟩ | ⟨hp, -, -⟩ | ⟨-, hf, hc⟩
    · rw [hdone] at hp; simp at hp
    · rw [hdone] at hp; simp at hp
    · exact ⟨hc, hf, h2⟩
  · intro w d e f
    rfl

/-- Witness for claim C2: the schedule where the first call acquires the
guard, the second call then runs its guard check and exits, and the first
call finishes. -/
theorem claim_C2_witness :
    (VenvManager.run VenvManager.initState ([true] ++ false :: [true, true])).cmds = 1 ∧
      (VenvManager.run VenvManager.initState ([true] ++ false :: [true, true])).flag =
        false ∧
      (VenvManager.run VenvManager.initState ([true] ++ false :: [true, true])).pc2 =
        VenvManager.PC.done :=
  claim_C2.1 [true] [true, true] (by decide) (by decide) (by decide)

/-- Claim C6: the tool-availability check resolves true immediately when the
bare PATH probe succeeds (no path probe even starts), resolves true at the
first succeeding well-known-path probe in completion order, and resolves
false only at the fourth and last path-probe callback after all probes have
failed (never while one is outstanding); the resolved boolean equals
"bare probe succeeded or some well-known-path probe succeeded", whatever the
completion order (any permutation of the four paths), so the result is
deterministic despite concurrency. -/
theorem claim_C6 :
    ∀ (bareOk : Bool) (outcomes : Fin 4 → Bool) (order : List (Fin 4)),
      order.Perm (List.finRange 4) →
      (bareOk = true → UvManager.checkUvInstalled bareOk outcomes order = some true) ∧
      (UvManager.checkUvInstalled bareOk outcomes order =
        some (bareOk || decide (∃ p, outcomes p = true))) ∧
      (bareOk = false → (∀ p, outcomes p = false) →
        (UvManager.runProbes outcomes order).res = some false ∧
          (UvManager.runProbes outcomes order).resolvedAt = some 4 ∧
          (UvManager.runProbes outcomes order).checkedPaths = 4) ∧
      (∀ (l₁ : List (Fin 4)) (p : Fin 4) (l₂ : List (Fin 4)),
        order = l₁ ++ p :: l₂ → (∀ q ∈ l₁, outcomes q = false) → outcomes p = true →
        (UvManager.runProbes outcomes order).res = some true ∧
          (UvManager.runProbes outcomes order).resolvedAt = some (l₁.length + 1)) := by
  intro bareOk outcomes order hperm
  have hlen : order.length = 4 := by
    have := hperm.length_eq
    simpa using this
  refine ⟨?_, ?_, ?_, ?_⟩
  · intro hb
    simp [UvManager.checkUvInstalled, hb]
  · cases bareOk with
    | true => simp [UvManager.checkUvInstalled]
    | false =>
      simp only [UvManager.checkUvInstalled, Bool.false_eq_true, if_false,
        Bool.false_or]
      by_cases hall : ∀ q ∈ order, outcomes q = false
      · rw [UvManager.runProbes_all_fail outcomes order hlen hall]
        have hnone : ¬ ∃ p, outcomes p = true := by
          rintro ⟨p, hp⟩
          have hmem : p ∈ order := hperm.mem_iff.mpr (List.mem_finRange p)
          rw [hall p hmem] at hp
          exact Bool.false_ne_true hp
        simp [hnone]
      · push_neg at hall
        obtain ⟨x, hx, hPx⟩ := hall
        have hPx' : outcomes x = true := by
          cases hout : outcomes x with
          | true => rfl
          | false => exact absurd hout hPx
        obtain ⟨l₁, p, l₂, heq, hfail, hp⟩ :=
          UvManager.exists_first_decomp (fun q => outcomes q = true) order ⟨x, hx, hPx'⟩
        have hfail' : ∀ q ∈ l₁, outcomes q = false := by
          intro q hq
          cases hout : outcomes q with
          | true => exact absurd hout (hfail q hq)
          | false => rfl
        rw [heq, UvManager.runProbes_success outcomes l₁ p l₂ (heq ▸ hlen) hfail' hp]
        have hsome : ∃ q, outcomes q = true := ⟨p, hp⟩
        simp [hsome]
  · intro hb hall
    rw [UvManager.runProbes_all_fail outcomes order hlen (fun q _ => hall q)]
    exact ⟨rfl, rfl, rfl⟩
  · intro l₁ p l₂ heq hfail hp
    subst heq
    rw [UvManager.runProbes_success outcomes l₁ p l₂ hlen hfail hp]
    exact ⟨rfl, rfl⟩

/-- Witness for claim C6: all four well-known-path probes fail in the
completion order 2,0,3,1 — the promise resolves false only at the fourth
callback. -/
theorem claim_C6_witness :
    (UvManager.runProbes (fun _ => false) [2, 0, 3, 1]).res = some false ∧
      (UvManager.runProbes (fun _ => false) [2, 0, 3, 1]).resolvedAt = some 4 ∧
      (UvManager.runProbes (fun _ => false) [2, 0, 3, 1]).checkedPaths = 4 :=
  (claim_C6 false (fun _ => false) [2, 0, 3, 1] (by decide)).2.2.1 rfl (fun _ => rfl)

/-- Claim C1 amended: an exact-match record outranks every other matching
record whose download count does not exceed its own — for every non-empty
query, every normalization constant, and every pair of records where the
first equals the query case-insensitively and the second does not, with the
second's download count at most the first's, the exact-match record's
weighted score is strictly greater (similarity saturates at 1.0 while any
other record scores at most 0.6 on similarity, and the download term is
monotone). -/
theorem claim_C1_amended :
    ∀ (e o : PackageRecord) (q : List Char) (m : ℚ),
      q ≠ [] → jsToLower e.project = jsToLower q → jsToLower o.project ≠ jsToLower q →
      dcOf o ≤ dcOf e →
      CommandHandlers.calculateWeightedScore o q m <
        CommandHandlers.calculateWeightedScore e q m := by
  intro e o q m hq hexact hne hdc
  have hsime : CommandHandlers.calculateKeywordSimilarity q e.project = 1 :=
    calculateKeywordSimilarity_exact q e.project hq hexact
  have hsimo : CommandHandlers.calculateKeywordSimilarity q o.project ≤ 3/5 :=
    calculateKeywordSimilarity_le_of_ne q o.project hne
  simp only [CommandHandlers.calculateWeightedScore]
  rw [hsime]
  have hds : (if 0 < m then (dcOf o : ℚ) / m else 0) ≤
      (if 0 < m then (dcOf e : ℚ) / m else 0) := by
    by_cases hm : 0 < m
    · rw [if_pos hm, if_pos hm]
      exact (div_le_div_iff_of_pos_right hm).mpr (by exact_mod_cast hdc)
    · rw [if_neg hm, if_neg hm]
  have hsq : Real.sqrt (((if 0 < m then (dcOf o : ℚ) / m else 0) : ℚ) : ℝ) ≤
      Real.sqrt (((if 0 < m then (dcOf e : ℚ) / m else 0) : ℚ) : ℝ) :=
    Real.sqrt_le_sqrt (by exact_mod_cast hds)
  have hsimo' : ((CommandHandlers.calculateKeywordSimilarity q o.project : ℚ) : ℝ) ≤
      3/5 := by
    have h1 : ((CommandHandlers.calculateKeywordSimilarity q o.project : ℚ) : ℝ) ≤
        (((3 : ℚ)/5 : ℚ) : ℝ) := by
      exact_mod_cast hsimo
    calc ((CommandHandlers.calculateKeywordSimilarity q o.project : ℚ) : ℝ)
        ≤ (((3 : ℚ)/5 : ℚ) : ℝ) := h1
      _ = 3/5 := by push_cast; ring
  rw [Rat.cast_one]
  nlinarith [hsq, hsimo']

/-- Witness for the amended claim C1: with maxD 1, the exact match `"num"`
(1 download) outscores `"numpy"` (0 downloads) on the query `"num"`. -/
theorem claim_C1_witness :
    CommandHandlers.calculateWeightedScore
        ⟨'n' :: 'u' :: 'm' :: 'p' :: 'y' :: [], some 0, none⟩
        ('n' :: 'u' :: 'm' :: []) 1 <
      CommandHandlers.calculateWeightedScore
        ⟨'n' :: 'u' :: 'm' :: [], some 1, none⟩
        ('n' :: 'u' :: 'm' :: []) 1 :=
  claim_C1_amended ⟨'n' :: 'u' :: 'm' :: [], some 1, none⟩
    ⟨'n' :: 'u' :: 'm' :: 'p' :: 'y' :: [], some 0, none⟩
    ('n' :: 'u' :: 'm' :: []) 1 (by decide) (by decide) (by decide) (by decide)

/-- Counterexample to claim C1 as stated: with the package list
`[{project:"numpy", download_count:1000}, {project:"num", download_count:0}]`
and the query `"num"`, both records match and `"num"` is the exact match,
but the 0.8-weighted download term dominates: `"num"` scores
0.8·√(0/1000) + 0.2·1 = 0.2 while `"numpy"` scores
0.8·√(1000/1000) + 0.2·0.6 = 0.92, so the exact-match record does not
receive the strictly greatest weighted score. -/
theorem claim_C1_counterexample : ¬ C1Statement := by
  intro h
  have hlow : jsToLower ('n' :: 'u' :: 'm' :: []) = ('n' :: 'u' :: 'm' :: []) := by decide
  have hfil : filterMatches
      [⟨'n' :: 'u' :: 'm' :: 'p' :: 'y' :: [], some 1000, none⟩,
        ⟨'n' :: 'u' :: 'm' :: [], some 0, none⟩]
      (jsToLower ('n' :: 'u' :: 'm' :: [])) =
      [⟨'n' :: 'u' :: 'm' :: 'p' :: 'y' :: [], some 1000, none⟩,
        ⟨'n' :: 'u' :: 'm' :: [], some 0, none⟩] := rfl
  have key := h
    [⟨'n' :: 'u' :: 'm' :: 'p' :: 'y' :: [], some 1000, none⟩,
      ⟨'n' :: 'u' :: 'm' :: [], some 0, none⟩]
    ('n' :: 'u' :: 'm' :: []) (by decide)
    ⟨'n' :: 'u' :: 'm' :: [], some 0, none⟩
    (by rw [hfil]; exact List.mem_cons_of_mem _ (List.mem_cons_self _ _))
    ⟨'n' :: 'u' :: 'm' :: 'p' :: 'y' :: [], some 1000, none⟩
    (by rw [hfil]; exact List.mem_cons_self _ _)
    (by decide) (by decide)
  have hsort : sortByDownloads
      [⟨'n' :: 'u' :: 'm' :: 'p' :: 'y' :: [], some 1000, none⟩,
        ⟨'n' :: 'u' :: 'm' :: [], some 0, none⟩] =
      [⟨'n' :: 'u' :: 'm' :: 'p' :: 'y' :: [], some 1000, none⟩,
        ⟨'n' :: 'u' :: 'm' :: [], some 0, none⟩] := by
    apply List.mergeSort_of_sorted
    refine List.Pairwise.cons ?_ (List.pairwise_singleton _ _)
    intro b hb
    rw [List.mem_singleton] at hb
    subst hb
    rfl
  have hmax : codeMaxDownloads
      [⟨'n' :: 'u' :: 'm' :: 'p' :: 'y' :: [], some 1000, none⟩,
        ⟨'n' :: 'u' :: 'm' :: [], some 0, none⟩]
      (jsToLower ('n' :: 'u' :: 'm' :: [])) = 1000 := by
    unfold codeMaxDownloads codeTopMatches
    rw [hfil, hsort]
    norm_num [dcOf]
  have e1 : CommandHandlers.calculateWeightedScore
      ⟨'n' :: 'u' :: 'm' :: [], some 0, none⟩ ('n' :: 'u' :: 'm' :: []) 1000 =
      0.2 := by
    simp only [CommandHandlers.calculateWeightedScore]
    rw [if_pos (by norm_num : (0 : ℚ) < 1000),
      show dcOf ⟨'n' :: 'u' :: 'm' :: [], some 0, none⟩ = 0 from rfl,
      show CommandHandlers.calculateKeywordSimilarity ('n' :: 'u' :: 'm' :: [])
        (⟨'n' :: 'u' :: 'm' :: [], some 0, none⟩ : PackageRecord).project = 1 from rfl]
    norm_num
  have e2 : CommandHandlers.calculateWeightedScore
      ⟨'n' :: 'u' :: 'm' :: 'p' :: 'y' :: [], some 1000, none⟩
      ('n' :: 'u' :: 'm' :: []) 1000 = 0.92 := by
    simp only [CommandHandlers.calculateWeightedScore]
    rw [if_pos (by norm_num : (0 : ℚ) < 1000),
      show dcOf ⟨'n' :: 'u' :: 'm' :: 'p' :: 'y' :: [], some 1000, none⟩ = 1000 from rfl,
      show CommandHandlers.calculateKeywordSimilarity ('n' :: 'u' :: 'm' :: [])
        (⟨'n' :: 'u' :: 'm' :: 'p' :: 'y' :: [], some 1000, none⟩ :
          PackageRecord).project = 3/5 from rfl]
    norm_num
  rw [hlow] at hmax
  rw [hlow, hmax, e1, e2] at key
  norm_num at key
